import Mathlib

/-!
Verification of the SWOT analysis app's deterministic text-processing core
(file smriti_swot_analysis.py): the response cleaner clean_swot_text and the
line classifier extract_swot_key_points.  Strings are modelled as lists of
characters; Python string methods (strip, split, replace, startswith,
substring membership) are embedded as recursive functions below.
-/

namespace Swot

/-- Whitespace characters recognized by Python's str.strip (ASCII subset). -/
def isSpace (c : Char) : Bool :=
  c = ' ' || c = '\t' || c = '\n' || c = '\r' || c = '\x0b' || c = '\x0c'

/-- Remove leading whitespace (left part of Python str.strip). -/
def stripLeft : List Char → List Char
  | [] => []
  | c :: cs => if isSpace c then stripLeft cs else c :: cs

/-- Remove trailing whitespace (right part of Python str.strip). -/
def stripRight : List Char → List Char
  | [] => []
  | c :: cs =>
    if stripRight cs = [] ∧ isSpace c then [] else c :: stripRight cs

/-- Python str.strip: remove leading and trailing whitespace. -/
def pyStrip (s : List Char) : List Char := stripRight (stripLeft s)

/-- Decide whether the first list is a prefix of the second. -/
def isPrefixL : List Char → List Char → Bool
  | [], _ => true
  | _ :: _, [] => false
  | a :: as, b :: bs => a = b && isPrefixL as bs

/-- Python substring membership: needle occurs contiguously in the haystack. -/
def containsSub : List Char → List Char → Bool
  | n, [] => n.isEmpty
  | n, c :: cs => isPrefixL n (c :: cs) || containsSub n cs

/-- Python s.split(sep)[0]: the part of s strictly before the first
occurrence of sep (the whole of s when sep does not occur). -/
def splitFirst (sep : List Char) : List Char → List Char
  | [] => []
  | c :: cs => if isPrefixL sep (c :: cs) then [] else c :: splitFirst sep cs

/-- Python s.replace with the two-character pattern backslash-n replaced by a
newline, scanning left to right over non-overlapping occurrences. -/
def replaceEscapes : List Char → List Char
  | [] => []
  | [c] => [c]
  | c :: d :: rest =>
    if c = '\\' ∧ d = 'n' then '\n' :: replaceEscapes rest
    else c :: replaceEscapes (d :: rest)

/-- Python s.split with separator a newline: list of lines, keeping empty
pieces (so the empty string yields one empty line). -/
def splitLines : List Char → List (List Char)
  | [] => [[]]
  | c :: cs =>
    if c = '\n' then [] :: splitLines cs
    else
      match splitLines cs with
      | [] => [[c]]
      | l :: ls => (c :: l) :: ls

/-- Python line.startswith applied to the one-character marker of a bullet. -/
def startsWithStar : List Char → Bool
  | '*' :: _ => true
  | _ => false

/-- The metadata marker string stripped by clean_swot_text. -/
def addKwMarker : List Char := "additional_kwargs".data

/-- clean_swot_text on a textual payload: cut at the metadata marker,
replace escaped newlines by real ones, and strip surrounding whitespace. -/
def clean_swot_text (s : List Char) : List Char :=
  pyStrip (replaceEscapes (splitFirst addKwMarker s))

/-- The four SWOT categories. -/
inductive Cat : Type
  | S | W | O | T
deriving DecidableEq

/-- The four ordered bucket sequences built by the classifier. -/
structure Sections : Type where
  strengths : List (List Char)
  weaknesses : List (List Char)
  opportunities : List (List Char)
  threats : List (List Char)
deriving DecidableEq

/-- The state with all four buckets empty. -/
def emptySections : Sections := ⟨[], [], [], []⟩

/-- The bucket sequence of a given category. -/
def bucketGet : Cat → Sections → List (List Char)
  | Cat.S, sw => sw.strengths
  | Cat.W, sw => sw.weaknesses
  | Cat.O, sw => sw.opportunities
  | Cat.T, sw => sw.threats

/-- Append one entry at the end of the bucket of the given category,
leaving the other three buckets unchanged. -/
def appendEntry (c : Cat) (e : List Char) (sw : Sections) : Sections :=
  match c with
  | Cat.S => { sw with strengths := sw.strengths ++ [e] }
  | Cat.W => { sw with weaknesses := sw.weaknesses ++ [e] }
  | Cat.O => { sw with opportunities := sw.opportunities ++ [e] }
  | Cat.T => { sw with threats := sw.threats ++ [e] }

def kwStrengths : List Char := "Strengths".data
def kwWeaknesses : List Char := "Weaknesses".data
def kwOpportunities : List Char := "Opportunities".data
def kwThreats : List Char := "Threats".data

/-- The category selected by a (stripped) line through the elif chain of
extract_swot_key_points, in source order, none when no keyword occurs. -/
def lineCat (line : List Char) : Option Cat :=
  if containsSub kwStrengths line then some Cat.S
  else if containsSub kwWeaknesses line then some Cat.W
  else if containsSub kwOpportunities line then some Cat.O
  else if containsSub kwThreats line then some Cat.T
  else none

/-- One iteration of the loop body of extract_swot_key_points on one raw
line: keyword lines retarget the current bucket, bullet lines are stripped
of their marker and appended to the current bucket (none when no bucket is
set yet: the AttributeError of category.append on None), anything else is
discarded. -/
def stepLine (st : Option Cat × Sections) (rawLine : List Char) :
    Option (Option Cat × Sections) :=
  if containsSub kwStrengths (pyStrip rawLine) then some (some Cat.S, st.2)
  else if containsSub kwWeaknesses (pyStrip rawLine) then some (some Cat.W, st.2)
  else if containsSub kwOpportunities (pyStrip rawLine) then some (some Cat.O, st.2)
  else if containsSub kwThreats (pyStrip rawLine) then some (some Cat.T, st.2)
  else if startsWithStar (pyStrip rawLine) then
    match st.1 with
    | none => none
    | some c =>
      some (some c, appendEntry c (pyStrip ((pyStrip rawLine).drop 1)) st.2)
  else some st

/-- The loop of extract_swot_key_points over the list of lines. -/
def runLines : Option Cat × Sections → List (List Char) → Option Sections
  | st, [] => some st.2
  | st, l :: ls =>
    match stepLine st l with
    | none => none
    | some st1 => runLines st1 ls

/-- The four full buckets accumulated by extract_swot_key_points just
before its return statement truncates them. -/
def extract_full (swot_text : List Char) : Option Sections :=
  runLines (none, emptySections) (splitLines swot_text)

/-- Truncate every bucket to its first three entries. -/
def takeThree (sw : Sections) : Sections :=
  ⟨sw.strengths.take 3, sw.weaknesses.take 3,
   sw.opportunities.take 3, sw.threats.take 3⟩

/-- extract_swot_key_points: classify every line, then return only the
first three entries of each bucket. -/
def extract_swot_key_points (swot_text : List Char) : Option Sections :=
  (extract_full swot_text).map takeThree

/-- Modelled from the spec: the table-rendering step is not present in
src/smriti_swot_analysis.py, so it is taken from the spec's words.  Pad a
bucket to length n with the placeholder "-". -/
def padBucket (n : Nat) (l : List (List Char)) : List (List Char) :=
  l ++ List.replicate (n - l.length) "-".data

/-- Modelled from the spec: the length of the longest of the four buckets,
used as the common padded length. -/
def maxBucketLen (sw : Sections) : Nat :=
  max (max sw.strengths.length sw.weaknesses.length)
      (max sw.opportunities.length sw.threats.length)

/-- Modelled from the spec: emit two two-column tables, Strengths paired
with Weaknesses and Opportunities paired with Threats, one row per padded
index, all four buckets padded with "-" to the longest length. -/
def renderSwotTables (sw : Sections) :
    List (List Char × List Char) × List (List Char × List Char) :=
  (List.zip (padBucket (maxBucketLen sw) sw.strengths)
            (padBucket (maxBucketLen sw) sw.weaknesses),
   List.zip (padBucket (maxBucketLen sw) sw.opportunities)
            (padBucket (maxBucketLen sw) sw.threats))

/-! Helper lemmas about the embedded string primitives. -/

/-- Induction on a character list two characters at a time, matching the
recursion pattern of replaceEscapes. -/
theorem twoStepInduction {p : List Char → Prop}
    (h0 : p []) (h1 : ∀ c, p [c])
    (h2 : ∀ c d rest, p rest → p (d :: rest) → p (c :: d :: rest)) :
    ∀ s, p s
  | [] => h0
  | [c] => h1 c
  | c :: d :: rest =>
    h2 c d rest (twoStepInduction h0 h1 h2 rest)
      (twoStepInduction h0 h1 h2 (d :: rest))

theorem isPrefixL_nil_left (s : List Char) : isPrefixL [] s = true := by
  cases s <;> simp [isPrefixL]

theorem isPrefixL_refl (s : List Char) : isPrefixL s s = true := by
  induction s with
  | nil => simp [isPrefixL]
  | cons c cs ih => simp [isPrefixL, ih]

theorem isPrefixL_trans {a b c : List Char} (hab : isPrefixL a b = true)
    (hbc : isPrefixL b c = true) : isPrefixL a c = true := by
  induction a generalizing b c with
  | nil => cases c <;> simp [isPrefixL]
  | cons x as ih =>
    cases b with
    | nil => simp [isPrefixL] at hab
    | cons y bs =>
      cases c with
      | nil => simp [isPrefixL] at hbc
      | cons z cs =>
        simp only [isPrefixL, Bool.and_eq_true, decide_eq_true_eq] at hab hbc ⊢
        exact ⟨hab.1.trans hbc.1, ih hab.2 hbc.2⟩

theorem isPrefixL_append_self (a t : List Char) :
    isPrefixL a (a ++ t) = true := by
  induction a with
  | nil => exact isPrefixL_nil_left t
  | cons c cs ih => simp [isPrefixL, ih]

theorem containsSub_nil_left (s : List Char) : containsSub [] s = true := by
  cases s <;> simp [containsSub, isPrefixL_nil_left]

theorem containsSub_cons_of {m cs : List Char} (c : Char)
    (h : containsSub m cs = true) : containsSub m (c :: cs) = true := by
  simp [containsSub, h]

theorem containsSub_of_isPrefixL {m s : List Char}
    (h : isPrefixL m s = true) : containsSub m s = true := by
  cases s with
  | nil =>
    cases m with
    | nil => simp [containsSub]
    | cons x xs => simp [isPrefixL] at h
  | cons c cs => simp [containsSub, h]

theorem containsSub_of_prefix_contains {m q s : List Char}
    (hq : isPrefixL q s = true) (h : containsSub m q = true) :
    containsSub m s = true := by
  induction q generalizing s with
  | nil =>
    cases m with
    | nil => exact containsSub_nil_left s
    | cons x xs => simp [containsSub] at h
  | cons c q1 ih =>
    cases s with
    | nil => simp [isPrefixL] at hq
    | cons z s1 =>
      simp only [isPrefixL, Bool.and_eq_true, decide_eq_true_eq] at hq
      rcases hq with ⟨rfl, hq1⟩
      simp only [containsSub, Bool.or_eq_true] at h
      rcases h with h | h
      · exact containsSub_of_isPrefixL
          (isPrefixL_trans h (by simp [isPrefixL, hq1]))
      · exact containsSub_cons_of _ (ih hq1 h)

theorem splitFirst_isPrefix (sep s : List Char) :
    isPrefixL (splitFirst sep s) s = true := by
  induction s with
  | nil => simp [splitFirst, isPrefixL]
  | cons c cs ih =>
    simp only [splitFirst]
    split
    · exact isPrefixL_nil_left _
    · simp [isPrefixL, ih]

theorem splitFirst_not_contains {sep : List Char} (hsep : sep ≠ [])
    (s : List Char) : containsSub sep (splitFirst sep s) = false := by
  induction s with
  | nil =>
    cases sep with
    | nil => exact absurd rfl hsep
    | cons a as => simp [splitFirst, containsSub]
  | cons c cs ih =>
    simp only [splitFirst]
    split
    · cases sep with
      | nil => exact absurd rfl hsep
      | cons a as => simp [containsSub]
    · rename_i hnot
      simp only [containsSub, Bool.or_eq_false_iff]
      refine ⟨?_, ih⟩
      cases sep with
      | nil => exact absurd rfl hsep
      | cons a as =>
        by_contra hcon
        rw [Bool.not_eq_false] at hcon
        simp only [isPrefixL, Bool.and_eq_true, decide_eq_true_eq] at hcon
        rcases hcon with ⟨rfl, has⟩
        apply hnot
        simp only [isPrefixL, Bool.and_eq_true, decide_eq_true_eq]
        exact ⟨trivial, isPrefixL_trans has (splitFirst_isPrefix _ cs)⟩

theorem splitFirst_eq_of_not_contains {sep s : List Char}
    (h : containsSub sep s = false) : splitFirst sep s = s := by
  induction s with
  | nil => rfl
  | cons c cs ih =>
    simp only [containsSub, Bool.or_eq_false_iff] at h
    simp only [splitFirst, h.1, Bool.false_eq_true, if_false, ih h.2]

theorem splitFirst_prefix_of_decomp {sep : List Char} (hsep : sep ≠ [])
    (pre post : List Char) :
    isPrefixL (splitFirst sep (pre ++ sep ++ post)) pre = true := by
  induction pre with
  | nil =>
    cases sep with
    | nil => exact absurd rfl hsep
    | cons a as =>
      simp only [List.nil_append]
      have hp := isPrefixL_append_self (a :: as) post
      rw [List.cons_append] at hp
      simp only [splitFirst, List.cons_append, List.append_eq]
      rw [if_pos hp]
      simp [isPrefixL]
  | cons p pre1 ih =>
    rw [show ((p :: pre1) ++ sep ++ post) = p :: (pre1 ++ sep ++ post) from rfl]
    simp only [splitFirst]
    split
    · exact isPrefixL_nil_left _
    · simp only [isPrefixL, Bool.and_eq_true, decide_eq_true_eq]
      refine ⟨trivial, ?_⟩
      simpa [List.append_assoc] using ih

theorem isPrefixL_replaceEscapes (s : List Char) :
    ∀ m : List Char, '\n' ∉ m →
      isPrefixL m (replaceEscapes s) = true → isPrefixL m s = true := by
  induction s using twoStepInduction with
  | h0 => intro m hm h; simpa [replaceEscapes] using h
  | h1 c => intro m hm h; simpa [replaceEscapes] using h
  | h2 c d rest ih1 ih2 =>
    intro m hm h
    simp only [replaceEscapes] at h
    by_cases hcd : c = '\\' ∧ d = 'n'
    · rw [if_pos hcd] at h
      cases m with
      | nil => exact isPrefixL_nil_left _
      | cons x m1 =>
        simp only [isPrefixL, Bool.and_eq_true, decide_eq_true_eq] at h
        exact absurd (h.1 ▸ List.mem_cons_self x m1) (h.1 ▸ hm)

    · rw [if_neg hcd] at h
      cases m with
      | nil => exact isPrefixL_nil_left _
      | cons x m1 =>
        simp only [isPrefixL, Bool.and_eq_true, decide_eq_true_eq] at h ⊢
        refine ⟨h.1, ?_⟩
        exact ih2 m1 (fun hmem => hm (List.mem_cons_of_mem x hmem)) h.2

theorem containsSub_replaceEscapes (s : List Char) :
    ∀ m : List Char, '\n' ∉ m →
      containsSub m (replaceEscapes s) = true → containsSub m s = true := by
  induction s using twoStepInduction with
  | h0 => intro m hm h; simpa [replaceEscapes] using h
  | h1 c => intro m hm h; simpa [replaceEscapes] using h
  | h2 c d rest ih1 ih2 =>
    intro m hm h
    simp only [replaceEscapes] at h
    by_cases hcd : c = '\\' ∧ d = 'n'
    · rw [if_pos hcd] at h
      cases m with
      | nil => exact containsSub_nil_left _
      | cons x m1 =>
        simp only [containsSub, Bool.or_eq_true] at h
        rcases h with h | h
        · simp only [isPrefixL, Bool.and_eq_true, decide_eq_true_eq] at h
          exact absurd (h.1 ▸ List.mem_cons_self x m1) (h.1 ▸ hm)
        · exact containsSub_cons_of c (containsSub_cons_of d (ih1 _ hm h))
    · rw [if_neg hcd] at h
      simp only [containsSub, Bool.or_eq_true] at h
      rcases h with h | h
      · cases m with
        | nil => exact containsSub_nil_left _
        | cons x m1 =>
          simp only [isPrefixL, Bool.and_eq_true, decide_eq_true_eq] at h
          have hp := isPrefixL_replaceEscapes (d :: rest) m1
            (fun hmem => hm (List.mem_cons_of_mem x hmem)) h.2
          apply containsSub_of_isPrefixL
          simp [isPrefixL, h.1, hp]
      · exact containsSub_cons_of c (ih2 _ hm h)

theorem replaceEscapes_no_pair (s : List Char) :
    containsSub ['\\', 'n'] (replaceEscapes s) = false := by
  induction s using twoStepInduction with
  | h0 => simp [replaceEscapes, containsSub]
  | h1 c => simp [replaceEscapes, containsSub, isPrefixL]
  | h2 c d rest ih1 ih2 =>
    simp only [replaceEscapes]
    by_cases hcd : c = '\\' ∧ d = 'n'
    · rw [if_pos hcd]
      simp [containsSub, isPrefixL, ih1]
    · rw [if_neg hcd]
      simp only [containsSub, Bool.or_eq_false_iff]
      refine ⟨?_, ih2⟩
      by_cases hc : c = '\\'
      · have hd : d ≠ 'n' := fun hdn => hcd ⟨hc, hdn⟩
        cases rest with
        | nil => simp [replaceEscapes, isPrefixL, hc, Ne.symm hd]
        | cons e rest1 =>
          simp only [replaceEscapes]
          by_cases hde : d = '\\' ∧ e = 'n'
          · rw [if_pos hde]; simp [isPrefixL, hc]
          · rw [if_neg hde]; simp [isPrefixL, hc, Ne.symm hd]
      · simp only [isPrefixL, Bool.and_eq_false_iff, decide_eq_true_eq]
        left
        simpa using fun hcc => hc hcc.symm

theorem replaceEscapes_eq_of_no_pair {s : List Char}
    (h : containsSub ['\\', 'n'] s = false) : replaceEscapes s = s := by
  induction s using twoStepInduction with
  | h0 => rfl
  | h1 c => rfl
  | h2 c d rest ih1 ih2 =>
    simp only [containsSub, Bool.or_eq_false_iff] at h
    have hcd : ¬(c = '\\' ∧ d = 'n') := by
      rcases h with ⟨h1f, -⟩
      intro hcd
      rcases hcd with ⟨rfl, rfl⟩
      simp [isPrefixL] at h1f
    have htail : containsSub ['\\', 'n'] (d :: rest) = false := by
      simp only [containsSub, Bool.or_eq_false_iff]
      exact h.2
    simp only [replaceEscapes, if_neg hcd]
    rw [ih2 htail]

theorem stripLeft_length (s : List Char) :
    (stripLeft s).length ≤ s.length := by
  induction s with
  | nil => simp [stripLeft]
  | cons c cs ih =>
    simp only [stripLeft]
    split
    · exact ih.trans (by simp)
    · simp

theorem stripLeft_idem (s : List Char) :
    stripLeft (stripLeft s) = stripLeft s := by
  induction s with
  | nil => rfl
  | cons c cs ih =>
    simp only [stripLeft]
    split
    · exact ih
    · rename_i hns
      simp [stripLeft, hns]

theorem containsSub_stripLeft {m : List Char} (s : List Char)
    (h : containsSub m (stripLeft s) = true) : containsSub m s = true := by
  induction s with
  | nil => simpa [stripLeft] using h
  | cons c cs ih =>
    simp only [stripLeft] at h
    revert h
    split
    · intro h
      exact containsSub_cons_of c (ih h)
    · intro h
      exact h

theorem stripRight_isPrefix (s : List Char) :
    isPrefixL (stripRight s) s = true := by
  induction s with
  | nil => simp [stripRight, isPrefixL]
  | cons c cs ih =>
    simp only [stripRight]
    split
    · exact isPrefixL_nil_left _
    · simp [isPrefixL, ih]

theorem stripRight_idem (s : List Char) :
    stripRight (stripRight s) = stripRight s := by
  induction s with
  | nil => rfl
  | cons c cs ih =>
    simp only [stripRight]
    split
    · rfl
    · rename_i hcon
      simp only [stripRight, ih]
      rw [if_neg hcon]

theorem stripLeft_stripRight_comm (u : List Char)
    (hu : stripLeft u = u) : stripLeft (stripRight u) = stripRight u := by
  cases u with
  | nil => rfl
  | cons c cs =>
    have hns : ¬ isSpace c = true := by
      intro hsp
      simp only [stripLeft, hsp, if_true] at hu
      have hlen := stripLeft_length cs
      have : cs.length + 1 ≤ cs.length := by
        calc cs.length + 1 = (c :: cs).length := by simp
        _ = (stripLeft cs).length := by rw [hu]
        _ ≤ cs.length := hlen
      omega
    simp only [stripRight]
    split
    · rfl
    · simp [stripLeft, hns]

theorem pyStrip_idem (s : List Char) : pyStrip (pyStrip s) = pyStrip s := by
  unfold pyStrip
  rw [stripLeft_stripRight_comm (stripLeft s) (stripLeft_idem s)]
  exact stripRight_idem _

theorem containsSub_pyStrip {m : List Char} (s : List Char)
    (h : containsSub m (pyStrip s) = true) : containsSub m s = true := by
  unfold pyStrip at h
  exact containsSub_stripLeft s
    (containsSub_of_prefix_contains (stripRight_isPrefix (stripLeft s)) h)

theorem addKwMarker_ne_nil : addKwMarker ≠ [] := by decide

theorem newline_not_mem_addKwMarker : '\n' ∉ addKwMarker := by decide

theorem clean_no_marker (t : List Char) :
    containsSub addKwMarker (clean_swot_text t) = false := by
  by_contra hc
  rw [Bool.not_eq_false] at hc
  unfold clean_swot_text at hc
  have h1 := containsSub_pyStrip _ hc
  have h2 := containsSub_replaceEscapes _ _ newline_not_mem_addKwMarker h1
  rw [splitFirst_not_contains addKwMarker_ne_nil t] at h2
  exact Bool.false_ne_true h2

theorem clean_no_pair (t : List Char) :
    containsSub ['\\', 'n'] (clean_swot_text t) = false := by
  by_contra hc
  rw [Bool.not_eq_false] at hc
  unfold clean_swot_text at hc
  have h1 := containsSub_pyStrip _ hc
  rw [replaceEscapes_no_pair] at h1
  exact Bool.false_ne_true h1

theorem clean_swot_text_idem (t : List Char) :
    clean_swot_text (clean_swot_text t) = clean_swot_text t := by
  conv_lhs => rw [clean_swot_text]
  rw [splitFirst_eq_of_not_contains (clean_no_marker t),
    replaceEscapes_eq_of_no_pair (clean_no_pair t)]
  unfold clean_swot_text
  exact pyStrip_idem _

theorem stepLine_cases (st : Option Cat × Sections) (l : List Char) :
    stepLine st l =
      match lineCat (pyStrip l) with
      | some c => some (some c, st.2)
      | none =>
        if startsWithStar (pyStrip l) then
          match st.1 with
          | none => none
          | some c =>
            some (some c, appendEntry c (pyStrip ((pyStrip l).drop 1)) st.2)
        else some st := by
  unfold stepLine lineCat
  split_ifs <;> rfl

theorem bucketGet_appendEntry_self (c : Cat) (e : List Char) (sw : Sections) :
    bucketGet c (appendEntry c e sw) = bucketGet c sw ++ [e] := by
  cases c <;> rfl

theorem bucketGet_appendEntry_other {c c1 : Cat} (hne : c1 ≠ c)
    (e : List Char) (sw : Sections) :
    bucketGet c1 (appendEntry c e sw) = bucketGet c1 sw := by
  cases c <;> cases c1 <;> first | rfl | exact absurd rfl hne

theorem runLines_error_of_bullet (sw : Sections) (pre : List (List Char))
    (l : List Char) (post : List (List Char))
    (hpre : ∀ p ∈ pre, lineCat (pyStrip p) = none)
    (hl : lineCat (pyStrip l) = none)
    (hstar : startsWithStar (pyStrip l) = true) :
    runLines (none, sw) (pre ++ l :: post) = none := by
  induction pre generalizing sw with
  | nil =>
    simp only [List.nil_append, runLines]
    rw [stepLine_cases]
    simp [hl, hstar]
  | cons p pre1 ih =>
    rw [List.cons_append]
    simp only [runLines]
    rw [stepLine_cases]
    have hp : lineCat (pyStrip p) = none := hpre p (List.mem_cons_self p pre1)
    rw [hp]
    by_cases hps : startsWithStar (pyStrip p) = true
    · simp [hps]
    · simp only [hps, Bool.false_eq_true, if_false]
      exact ih sw (fun q hq => hpre q (List.mem_cons_of_mem p hq))

/-! The claims. -/

/-- C1: every loop iteration of extract_swot_key_points touches at most one
bucket: either all four buckets are unchanged, or exactly one bucket — the
one named by the current category, i.e. by the most recently seen
section-keyword line — gains exactly one entry while the other three stay
unchanged; moreover the current category is updated exactly by keyword
lines, so categorization is mutually exclusive per line. -/
theorem swot_step_mutually_exclusive (cat : Option Cat) (sw : Sections)
    (l : List Char) (st1 : Option Cat × Sections)
    (h : stepLine (cat, sw) l = some st1) :
    (st1.2 = sw ∨
      ∃ c, cat = some c ∧ st1.1 = some c ∧
        bucketGet c st1.2 = bucketGet c sw ++ [pyStrip ((pyStrip l).drop 1)] ∧
        ∀ c1, c1 ≠ c → bucketGet c1 st1.2 = bucketGet c1 sw) ∧
    (∀ c, lineCat (pyStrip l) = some c → st1.1 = some c) ∧
    (lineCat (pyStrip l) = none → st1.1 = cat) := by
  rw [stepLine_cases] at h
  cases hlc : lineCat (pyStrip l) with
  | some c =>
    rw [hlc] at h
    simp only [Option.some_inj] at h
    subst h
    refine ⟨Or.inl rfl, ?_, ?_⟩
    · intro c1 hc1
      simp only [Option.some_inj] at hc1
      simp [hc1]
    · intro hcon
      exact absurd hcon (by simp)
  | none =>
    rw [hlc] at h
    by_cases hstar : startsWithStar (pyStrip l) = true
    · rw [if_pos hstar] at h
      cases cat with
      | none => simp at h
      | some c =>
        simp only [Option.some_inj] at h
        subst h
        refine ⟨Or.inr ⟨c, rfl, rfl, ?_, ?_⟩, by simp, fun _ => rfl⟩
        · exact bucketGet_appendEntry_self c _ sw
        · intro c1 hne
          exact bucketGet_appendEntry_other hne _ sw
    · rw [if_neg hstar] at h
      simp only [Option.some_inj] at h
      subst h
      exact ⟨Or.inl rfl, by simp, fun _ => rfl⟩

/-- C1 witness: a bullet line under the Strengths category appends exactly
one entry to the Strengths bucket. -/
theorem swot_step_mutually_exclusive_witness :
    ((some Cat.S, appendEntry Cat.S "Strong brand".data emptySections) :
        Option Cat × Sections).2 = emptySections ∨
    ∃ c, (some Cat.S : Option Cat) = some c ∧
      ((some Cat.S, appendEntry Cat.S "Strong brand".data emptySections) :
          Option Cat × Sections).1 = some c ∧
      bucketGet c ((some Cat.S,
          appendEntry Cat.S "Strong brand".data emptySections) :
          Option Cat × Sections).2 =
        bucketGet c emptySections ++ ["Strong brand".data] ∧
      ∀ c1, c1 ≠ c →
        bucketGet c1 ((some Cat.S,
            appendEntry Cat.S "Strong brand".data emptySections) :
            Option Cat × Sections).2 = bucketGet c1 emptySections :=
  (swot_step_mutually_exclusive (some Cat.S) emptySections
    "* Strong brand".data
    (some Cat.S, appendEntry Cat.S "Strong brand".data emptySections) rfl).1

/-- C2: on the canonical structured input the parser returns exactly one
entry per bucket, Strengths "Strong brand", Weaknesses "High costs",
Opportunities "New markets", Threats "Competition". -/
theorem swot_structured_example_parses :
    extract_swot_key_points
      "### Strengths\n* Strong brand\n### Weaknesses\n* High costs\n### Opportunities\n* New markets\n### Threats\n* Competition\n".data =
      some ⟨["Strong brand".data], ["High costs".data],
        ["New markets".data], ["Competition".data]⟩ := by
  rfl

/-- C3: when a bullet line occurs before any section-keyword line, the
parser fails (category.append on None) and returns no sections at all. -/
theorem swot_bullet_before_header_fails (text : List Char)
    (pre : List (List Char)) (l : List Char) (post : List (List Char))
    (hsplit : splitLines text = pre ++ l :: post)
    (hpre : ∀ p ∈ pre, lineCat (pyStrip p) = none)
    (hl : lineCat (pyStrip l) = none)
    (hstar : startsWithStar (pyStrip l) = true) :
    extract_swot_key_points text = none := by
  unfold extract_swot_key_points extract_full
  rw [hsplit, runLines_error_of_bullet emptySections pre l post hpre hl hstar]
  rfl

/-- C3 witness: a bullet on the first line, before the Strengths header,
makes the parser fail. -/
theorem swot_bullet_before_header_fails_witness :
    extract_swot_key_points "* orphan\nStrengths".data = none :=
  swot_bullet_before_header_fails "* orphan\nStrengths".data []
    "* orphan".data ["Strengths".data] rfl (by simp) (by decide) rfl

/-- C4: both rendered sub-tables (Strengths paired with Weaknesses, and
Opportunities paired with Threats) have exactly max of the four bucket
lengths rows, the shorter buckets being padded with the "-" placeholder. -/
theorem swot_table_rows_length (sw : Sections) :
    (renderSwotTables sw).1.length = maxBucketLen sw ∧
    (renderSwotTables sw).2.length = maxBucketLen sw := by
  have hpad : ∀ l : List (List Char), l.length ≤ maxBucketLen sw →
      (padBucket (maxBucketLen sw) l).length = maxBucketLen sw := by
    intro l hl
    simp only [padBucket, List.length_append, List.length_replicate]
    omega
  have hS : sw.strengths.length ≤ maxBucketLen sw := by
    unfold maxBucketLen; omega
  have hW : sw.weaknesses.length ≤ maxBucketLen sw := by
    unfold maxBucketLen; omega
  have hO : sw.opportunities.length ≤ maxBucketLen sw := by
    unfold maxBucketLen; omega
  have hT : sw.threats.length ≤ maxBucketLen sw := by
    unfold maxBucketLen; omega
  constructor
  · simp only [renderSwotTables, List.length_zip, hpad _ hS, hpad _ hW]
    omega
  · simp only [renderSwotTables, List.length_zip, hpad _ hO, hpad _ hT]
    omega

/-- C5: when the raw textual payload contains the metadata marker
"additional_kwargs", the cleaned text contains no occurrence of the marker,
and it is computed purely from a prefix of the part of the payload that
comes before the marker. -/
theorem swot_clean_truncates_metadata (t pre post : List Char)
    (h : t = pre ++ addKwMarker ++ post) :
    containsSub addKwMarker (clean_swot_text t) = false ∧
    ∃ q, isPrefixL q pre = true ∧
      clean_swot_text t = pyStrip (replaceEscapes q) := by
  refine ⟨clean_no_marker t, splitFirst addKwMarker t, ?_, rfl⟩
  subst h
  exact splitFirst_prefix_of_decomp addKwMarker_ne_nil pre post

/-- C5 witness: a concrete payload with marker and trailing junk. -/
theorem swot_clean_truncates_metadata_witness :
    containsSub addKwMarker
      (clean_swot_text "SWOT ok additional_kwargs junk".data) = false ∧
    ∃ q, isPrefixL q "SWOT ok ".data = true ∧
      clean_swot_text "SWOT ok additional_kwargs junk".data =
        pyStrip (replaceEscapes q) :=
  swot_clean_truncates_metadata "SWOT ok additional_kwargs junk".data
    "SWOT ok ".data " junk".data rfl

/-- C6: cleaning is idempotent for the parser: parsing cleaned text and
parsing twice-cleaned text yield the same four buckets. -/
theorem swot_parse_idempotent_after_clean (t : List Char) :
    extract_swot_key_points (clean_swot_text t) =
      extract_swot_key_points (clean_swot_text (clean_swot_text t)) := by
  rw [clean_swot_text_idem]

/-- C7: keyword matching of the classifier is substring-based on the exact
casing of the four keywords, tried in the fixed order Strengths,
Weaknesses, Opportunities, Threats, the first match winning; a keyword
line only retargets the current bucket and appends nothing. -/
theorem swot_keyword_priority (cat : Option Cat) (sw : Sections)
    (l : List Char) :
    (containsSub kwStrengths (pyStrip l) = true →
      stepLine (cat, sw) l = some (some Cat.S, sw)) ∧
    (containsSub kwStrengths (pyStrip l) = false →
      containsSub kwWeaknesses (pyStrip l) = true →
      stepLine (cat, sw) l = some (some Cat.W, sw)) ∧
    (containsSub kwStrengths (pyStrip l) = false →
      containsSub kwWeaknesses (pyStrip l) = false →
      containsSub kwOpportunities (pyStrip l) = true →
      stepLine (cat, sw) l = some (some Cat.O, sw)) ∧
    (containsSub kwStrengths (pyStrip l) = false →
      containsSub kwWeaknesses (pyStrip l) = false →
      containsSub kwOpportunities (pyStrip l) = false →
      containsSub kwThreats (pyStrip l) = true →
      stepLine (cat, sw) l = some (some Cat.T, sw)) := by
  refine ⟨?_, ?_, ?_, ?_⟩
  · intro h1
    simp [stepLine, h1]
  · intro h1 h2
    simp [stepLine, h1, h2]
  · intro h1 h2 h3
    simp [stepLine, h1, h2, h3]
  · intro h1 h2 h3 h4
    simp [stepLine, h1, h2, h3, h4]

/-- C7 witness: a line containing both Strengths and Weaknesses selects
the Strengths bucket (first branch of the chain wins). -/
theorem swot_keyword_priority_witness :
    stepLine (none, emptySections) "Strengths and Weaknesses".data =
      some (some Cat.S, emptySections) :=
  (swot_keyword_priority none emptySections
    "Strengths and Weaknesses".data).1 (by decide)

/-- C8: a line that, once stripped, neither contains a section keyword nor
starts with the bullet character is silently discarded: the state is
unchanged and no bucket receives an entry. -/
theorem swot_other_lines_discarded (cat : Option Cat) (sw : Sections)
    (l : List Char) (hkw : lineCat (pyStrip l) = none)
    (hns : startsWithStar (pyStrip l) = false) :
    stepLine (cat, sw) l = some (cat, sw) := by
  rw [stepLine_cases, hkw, hns]
  simp

/-- C8 witness: the hyphen-marked line "- Not a bullet" is discarded. -/
theorem swot_other_lines_discarded_witness :
    stepLine (some Cat.S, emptySections) "- Not a bullet".data =
      some (some Cat.S, emptySections) :=
  swot_other_lines_discarded (some Cat.S) emptySections
    "- Not a bullet".data (by decide) rfl

/-- C9: the key-point extraction returns, for each category, exactly the
length-three prefix of the fully classified bucket, so every returned
sequence has at most three entries. -/
theorem swot_key_points_top_three (t : List Char) (sw r : Sections)
    (hfull : extract_full t = some sw)
    (hr : extract_swot_key_points t = some r) :
    r = ⟨sw.strengths.take 3, sw.weaknesses.take 3,
      sw.opportunities.take 3, sw.threats.take 3⟩ ∧
    r.strengths.length ≤ 3 ∧ r.weaknesses.length ≤ 3 ∧
    r.opportunities.length ≤ 3 ∧ r.threats.length ≤ 3 := by
  rw [extract_swot_key_points, hfull] at hr
  simp only [Option.map_some', Option.some_inj] at hr
  subst hr
  refine ⟨rfl, ?_, ?_, ?_, ?_⟩ <;>
    simp [takeThree, List.length_take]

/-- C9 witness: four Strengths bullets are truncated to the first three. -/
theorem swot_key_points_top_three_witness :
    (⟨["a".data, "b".data, "c".data], [], [], []⟩ : Sections) =
      ⟨(["a".data, "b".data, "c".data, "d".data] :
          List (List Char)).take 3,
        List.take 3 [], List.take 3 [], List.take 3 []⟩ ∧
    (["a".data, "b".data, "c".data] : List (List Char)).length ≤ 3 ∧
    ([] : List (List Char)).length ≤ 3 ∧
    ([] : List (List Char)).length ≤ 3 ∧
    ([] : List (List Char)).length ≤ 3 :=
  swot_key_points_top_three "### Strengths\n* a\n* b\n* c\n* d".data
    ⟨["a".data, "b".data, "c".data, "d".data], [], [], []⟩
    ⟨["a".data, "b".data, "c".data], [], [], []⟩ rfl rfl

/-- C10: bullet stripping removes exactly the first character of the
stripped line (one "*") and then trims whitespace; the resulting entry is
appended to the current bucket. -/
theorem swot_bullet_strips_one_star (c : Cat) (sw : Sections)
    (l : List Char) (hkw : lineCat (pyStrip l) = none)
    (hstar : startsWithStar (pyStrip l) = true) :
    stepLine (some c, sw) l =
      some (some c, appendEntry c (pyStrip ((pyStrip l).drop 1)) sw) := by
  rw [stepLine_cases, hkw, hstar]
  simp

/-- C10 witness: a "**"-line keeps its second star in the stored entry, and
a lone "*" line stores the empty entry. -/
theorem swot_bullet_strips_one_star_witness :
    stepLine (some Cat.S, emptySections) "** bold".data =
      some (some Cat.S, appendEntry Cat.S "* bold".data emptySections) ∧
    stepLine (some Cat.W, emptySections) "*".data =
      some (some Cat.W, appendEntry Cat.W [] emptySections) :=
  ⟨swot_bullet_strips_one_star Cat.S emptySections "** bold".data
      (by decide) rfl,
    swot_bullet_strips_one_star Cat.W emptySections "*".data
      (by decide) rfl⟩

end Swot
